import Mathlib

/-!
Shallow embedding of the `updates` crate (src/core.rs) — version-key parsing
(`parse_version`), standard-release detection (`standard_release`), registry
candidate selection (`crates_io`) and the cached update check
(`UpdateChecker.check`) — together with theorems settling the specification
claims about them.

Modelling conventions:
* Rust `String` ordering (byte-wise lexicographic on UTF-8) is modelled by
  `cmpStr`, codepoint-lexicographic comparison, which coincides with byte
  order on all of Unicode; `Vec<String>` ordering by `cmpList`.
* Rust `str::to_lowercase` is modelled ASCII-wise by `Char.toLower`, and
  the regex class `\d` by ASCII `Char.isDigit` (matching the
  `is_ascii_digit` test the emission loop applies to the same characters).
  On all-ASCII input this is exact: ASCII characters lowercase
  one-to-one through the ASCII table and match `\d`/`[a-z]` exactly as
  modelled. Outside ASCII the program differs (Rust lowercases U+212A to
  `'k'`, possibly one-to-many as for U+0130, and its `\d` matches
  non-ASCII digits such as U+0663), so every universally quantified
  theorem below either carries explicit ASCII hypotheses — directly or
  through character classes that force ASCII — or, like the
  terminal-`"*final"` property, holds for every token sequence and is
  insensitive to the tokenization.
* The regex `(\d+|[a-z]+|\.|-)` scan of `parse_version` is modelled by
  `tokenize`, which takes maximal digit runs, maximal lowercase-letter runs,
  single `.` and `-` tokens, and skips every other character — exactly the
  leftmost-first behaviour of the Rust regex on the lowercased input.
* The cache mutex is modelled as always acquirable (the embedding is
  single-threaded; the Rust code ignores a poisoned lock the same way).
* `u64` subtraction `now - entry.timestamp` is modelled by `u64SubChecked`:
  under Rust's default (dev) profile an underflow panics, which the embedding
  surfaces as `none`; `UpdateChecker.check` therefore returns
  `Option (outcome × state × disk-write)`, `none` meaning a panic.
* I/O collaborators are parameters: the crates.io HTTP response is a
  `RegistryResponse` value, RFC3339 date parsing (chrono) is a
  `String → Option Int` function, the current clock an explicit `now : Nat`,
  and the bytes handed to `fs::write` by `save_to_permacache` are returned
  as the third component of `check`'s result (`none` when no write happens).
-/

namespace Updates

/-- Comparison of two characters by codepoint, as Rust compares bytes
(UTF-8 byte order coincides with codepoint order). -/
def cmpChar (a b : Char) : Ordering :=
  if a.toNat < b.toNat then .lt else if b.toNat < a.toNat then .gt else .eq

/-- Lexicographic comparison of character lists (Rust `str` ordering). -/
def cmpCharList : List Char → List Char → Ordering
  | [], [] => .eq
  | [], _ :: _ => .lt
  | _ :: _, [] => .gt
  | a :: as, b :: bs =>
    match cmpChar a b with
    | .eq => cmpCharList as bs
    | o => o

/-- Rust `String` ordering. -/
def cmpStr (a b : String) : Ordering :=
  cmpCharList a.data b.data

/-- Rust `Vec<String>` ordering: lexicographic on the element order. -/
def cmpList : List String → List String → Ordering
  | [], [] => .eq
  | [], _ :: _ => .lt
  | _ :: _, [] => .gt
  | a :: as, b :: bs =>
    match cmpStr a b with
    | .eq => cmpList as bs
    | o => o

/-- The maximal-run scan of the regex `(\d+|[a-z]+|\.|-)`, with an explicit
fuel argument to make the recursion structural (each step consumes at least
one character, so `fuel = length` never runs out): digit runs,
lowercase-letter runs, single dots and hyphens; all other characters are
skipped. -/
def tokenizeF : Nat → List Char → List String
  | 0, _ => []
  | _ + 1, [] => []
  | fuel + 1, c :: cs =>
    if c.isDigit then
      (c :: cs.takeWhile Char.isDigit).asString :: tokenizeF fuel (cs.dropWhile Char.isDigit)
    else if c.isLower then
      (c :: cs.takeWhile Char.isLower).asString :: tokenizeF fuel (cs.dropWhile Char.isLower)
    else if c = '.' then
      "." :: tokenizeF fuel cs
    else if c = '-' then
      "-" :: tokenizeF fuel cs
    else
      tokenizeF fuel cs

/-- The maximal-run scan of the regex `(\d+|[a-z]+|\.|-)` over a character
list. -/
def tokenize (cs : List Char) : List String :=
  tokenizeF cs.length cs

/-- The prerelease-identifier replacement table of `parse_version`. -/
def normalize (p : String) : String :=
  if p = "pre" then "c"
  else if p = "preview" then "c"
  else if p = "-" then "final-"
  else if p = "rc" then "c"
  else if p = "dev" then "@"
  else if p = "alpha" then "a"
  else if p = "beta" then "b"
  else p

/-- Rust `format!("{:0>8}", s)`: left-pad with `'0'` to width 8 (longer
strings are left unchanged). -/
def pad8 (s : String) : String :=
  ⟨List.replicate (8 - s.data.length) '0' ++ s.data⟩

/-- Whether a string's first character is an ASCII digit
(`part_str.chars().next().unwrap().is_ascii_digit()`; the callers guard
against the empty string). -/
def headIsDigit (s : String) : Bool :=
  match s.data with
  | [] => false
  | c :: _ => c.isDigit

/-- Whether a string starts with the given character (`starts_with('*')`). -/
def headIs (c : Char) (s : String) : Bool :=
  match s.data with
  | [] => false
  | d :: _ => d == c

/-- One iteration of the emission loop of `parse_version`: normalise the
token, drop empties and dots, pad numeric tokens, star-prefix the rest. -/
def emitToken (parts : List String) (tok : String) : List String :=
  let p := normalize tok
  if p = "" || p = "." then parts
  else if headIsDigit p then parts ++ [pad8 p]
  else parts ++ ["*" ++ p]

/-- Pop elements equal to `x` from the end of the list (the
`while processed.last() == Some(&x) { processed.pop() }` loops). -/
def popWhileLast (l : List String) (x : String) : List String :=
  ((l.reverse.dropWhile (fun y => y == x))).reverse

/-- One iteration of the post-processing loop of `parse_version`: on a
star token, first pop trailing `"*final-"` markers (only when the token
sorts below `"*final"`), then pop trailing `"00000000"` tokens, then push
the token. -/
def postStep (processed : List String) (part : String) : List String :=
  if headIs '*' part then
    popWhileLast
      (if cmpStr part "*final" = .lt then popWhileLast processed "*final-"
       else processed)
      "00000000" ++ [part]
  else
    processed ++ [part]

/-- The post-processing loop of `parse_version`. -/
def postprocess (parts : List String) : List String :=
  parts.foldl postStep []

/-- The token list built by the scanning loop of `parse_version`, with the
terminal `"*final"` appended. -/
def rawParts (s : String) : List String :=
  (tokenize (s.data.map Char.toLower)).foldl emitToken [] ++ ["*final"]

/-- `parse_version` from src/core.rs: lowercase, scan with the component
regex, normalise identifiers, pad numbers / star-prefix tags, append
`"*final"`, then post-process. -/
def parse_version (s : String) : List String :=
  postprocess (rawParts s)

/-- `standard_release` from src/core.rs: every character is an ASCII digit
or a dot. -/
def standard_release (version : String) : Bool :=
  version.data.all (fun c => c.isDigit || c == '.')

/-- Time in seconds before cache entries expire (1 hour). -/
def CACHE_EXPIRE_TIME : Nat := 3600

/-- `VersionInfo` from src/core.rs: one version record in the crates.io
response. -/
structure VersionInfo where
  num : String
  created_at : String
  yanked : Bool
deriving DecidableEq

/-- The external crates.io HTTP round trip, abstracted: either any
transport/decode/HTTP/timeout failure, or a successfully decoded list of
version records. -/
inductive RegistryResponse where
  | failure : RegistryResponse
  | success : List VersionInfo → RegistryResponse

/-- `CratesIoData` from src/core.rs. -/
structure CratesIoData where
  version : String
  created_at : Option String
deriving DecidableEq

/-- Stable insertion of `x` into `l`: `x` goes in front of the first element
it is `le`-related to, so among comparator-equal elements an element inserted
later (i.e. occurring later in the original list) stays behind earlier ones. -/
def stableInsert (le : α → α → Bool) (x : α) : List α → List α
  | [] => [x]
  | y :: ys => if le x y then x :: y :: ys else y :: stableInsert le x ys

/-- Stable sort by a boolean `le`. For a total preorder this computes the
unique stable sorting, hence exactly the list Rust's stable
`slice::sort_by` produces. -/
def stableSortBy (le : α → α → Bool) : List α → List α
  | [] => []
  | x :: xs => stableInsert le x (stableSortBy le xs)

/-- The pure tail of `crates_io` from src/core.rs, applied to the decoded
response: drop yanked versions, fail if none remain, stable-sort descending
by `parse_version`, pick the first candidate passing the prerelease filter.
Rust's stable `sort_by(|a, b| parse_version(&b.num).cmp(&parse_version(&a.num)))`
is modelled by `stableSortBy` with `le a b` iff the comparator does not
answer `Greater`. -/
def crates_io (resp : RegistryResponse) (include_prereleases : Bool) :
    Except String CratesIoData :=
  match resp with
  | .failure => .error "transport, decode, HTTP or timeout error"
  | .success data =>
    let versions := data.filter (fun v => !v.yanked)
    if versions.isEmpty then .error "No non-yanked versions found"
    else
      let sorted := stableSortBy
        (fun a b => cmpList (parse_version b.num) (parse_version a.num) != Ordering.gt)
        versions
      match sorted.find? (fun v => include_prereleases || standard_release v.num) with
      | none => .error "No suitable version found"
      | some vi => .ok ⟨vi.num, some vi.created_at⟩

/-- `UpdateResult` from src/core.rs; the chrono `DateTime<Utc>` is abstracted
to its parsed value. -/
structure UpdateResult where
  crate_name : String
  running_version : String
  available_version : String
  release_date : Option Int
deriving DecidableEq

/-- `UpdateResult::new`: the RFC3339 parse of the release date is the
external collaborator `dateParse`; an unparsable date becomes `none`. -/
def UpdateResult.new (dateParse : String → Option Int)
    (package running available : String) (release_date : Option String) :
    UpdateResult :=
  { crate_name := package
    running_version := running
    available_version := available
    release_date := release_date.bind dateParse }

/-- `CacheEntry` from src/core.rs. -/
structure CacheEntry where
  timestamp : Nat
  result : Option UpdateResult
deriving DecidableEq

/-- The in-memory `HashMap<(String, String), CacheEntry>`, as a partial map. -/
def Cache : Type := String × String → Option CacheEntry

/-- `UpdateChecker` from src/core.rs (the cache-file path is external; the
map handed to `fs::write` is surfaced in `check`'s result instead). -/
structure UpdateChecker where
  bypass_cache : Bool
  cache : Cache

/-- Rust `u64` subtraction under the default (dev) profile: underflow is a
panic, surfaced as `none`. (Release builds wrap instead.) -/
def u64SubChecked (a b : Nat) : Option Nat :=
  if b ≤ a then some (a - b) else none

/-- The registry arm of `UpdateChecker::check`: query crates.io, compare
version keys, build the result; any `Err` collapses to `None`. -/
def registryOutcome (crate_name crate_version : String)
    (resp : RegistryResponse) (dateParse : String → Option Int) :
    Option UpdateResult :=
  let include_prereleases := !standard_release crate_version
  match crates_io resp include_prereleases with
  | .ok data =>
    if cmpList (parse_version crate_version) (parse_version data.version) ≠ Ordering.lt then
      none
    else
      some (UpdateResult.new dateParse crate_name crate_version data.version data.created_at)
  | .error _ => none

/-- The cache-miss tail of `UpdateChecker::check`: compute the registry
outcome, overwrite the cache entry for the key with the current timestamp,
hand the whole updated map to `save_to_permacache`, return the outcome.
The third component is the map serialized to disk. -/
def registryPath (self : UpdateChecker) (now : Nat)
    (crate_name crate_version : String) (resp : RegistryResponse)
    (dateParse : String → Option Int) :
    Option UpdateResult × UpdateChecker × Option Cache :=
  let key := (crate_name, crate_version)
  let result := registryOutcome crate_name crate_version resp dateParse
  let newCache : Cache := fun k => if k = key then some ⟨now, result⟩ else self.cache k
  (result, { self with cache := newCache }, some newCache)

/-- `UpdateChecker::check` from src/core.rs. `none` is a panic (the dev-profile
underflow of `now - entry.timestamp` on a future cached timestamp); otherwise
the triple is (returned outcome, checker state after the call, map written to
disk by `save_to_permacache` — `none` when the fresh-hit early return skips
the write). -/
def UpdateChecker.check (self : UpdateChecker) (now : Nat)
    (crate_name crate_version : String) (resp : RegistryResponse)
    (dateParse : String → Option Int) :
    Option (Option UpdateResult × UpdateChecker × Option Cache) :=
  let key := (crate_name, crate_version)
  match (if self.bypass_cache then none else self.cache key) with
  | some entry =>
    match u64SubChecked now entry.timestamp with
    | none => none
    | some age =>
      if age < CACHE_EXPIRE_TIME then
        some (entry.result, self, none)
      else
        some (registryPath self now crate_name crate_version resp dateParse)
  | none => some (registryPath self now crate_name crate_version resp dateParse)

/-! Concrete fixtures used by the claim theorems and witnesses. -/

/-- A date parser that fails on every input (the claims never depend on the
parsed date value). -/
def dateParse0 : String → Option Int := fun _ => none

/-- The empty in-memory cache. -/
def emptyCache : Cache := fun _ => none

/-- A cache holding one entry for `("serde", "1.0.0")` whose stored timestamp
(1001) lies in the future of the clock value 1000 used with it. -/
def futureCache : Cache :=
  fun k => if k = ("serde", "1.0.0") then some ⟨1001, none⟩ else none

/-- A sample cached outcome. -/
def sampleResult : UpdateResult :=
  ⟨"demo", "1.0.0", "2.0.0", none⟩

/-- A cache holding one entry for `("demo", "1.0.0")` stored at time 500. -/
def demoCache : Cache :=
  fun k => if k = ("demo", "1.0.0") then some ⟨500, some sampleResult⟩ else none

/-- The registry response of end-to-end scenario 2: `1.0.0`,
`1.0.0-alpha.2` and `0.9.0`, none yanked. -/
def respScenario2 : RegistryResponse := .success
  [⟨"1.0.0", "2024-01-01T00:00:00Z", false⟩,
   ⟨"1.0.0-alpha.2", "2024-01-02T00:00:00Z", false⟩,
   ⟨"0.9.0", "2023-01-01T00:00:00Z", false⟩]

/-! ## Supporting lemmas -/

theorem length_dropWhile_le (p : Char → Bool) (l : List Char) :
    (l.dropWhile p).length ≤ l.length := by
  induction l with
  | nil => simp [List.dropWhile]
  | cons a l ih =>
    by_cases h : p a
    · rw [List.dropWhile_cons_of_pos h]
      exact Nat.le_succ_of_le ih
    · rw [List.dropWhile_cons_of_neg h]

theorem takeWhile_append_all {p : Char → Bool} {A B : List Char}
    (hA : ∀ x ∈ A, p x = true) (hB : ∀ b, B.head? = some b → p b = false) :
    (A ++ B).takeWhile p = A := by
  induction A with
  | nil =>
    cases B with
    | nil => rfl
    | cons b bs =>
      exact List.takeWhile_cons_of_neg (by simp [hB b rfl])
  | cons a as ih =>
    rw [List.cons_append, List.takeWhile_cons_of_pos (hA a (by simp)),
      ih (fun x hx => hA x (by simp [hx]))]

theorem dropWhile_append_all {p : Char → Bool} {A B : List Char}
    (hA : ∀ x ∈ A, p x = true) (hB : ∀ b, B.head? = some b → p b = false) :
    (A ++ B).dropWhile p = B := by
  induction A with
  | nil =>
    cases B with
    | nil => rfl
    | cons b bs =>
      exact List.dropWhile_cons_of_neg (by simp [hB b rfl])
  | cons a as ih =>
    rw [List.cons_append, List.dropWhile_cons_of_pos (hA a (by simp)),
      ih (fun x hx => hA x (by simp [hx]))]

theorem takeWhile_append_neg {α : Type} {p : α → Bool} {b : α} (A : List α)
    {B : List α} (hb : p b = false) :
    (A ++ b :: B).takeWhile p = A.takeWhile p := by
  induction A with
  | nil =>
    show (b :: B).takeWhile p = List.takeWhile p []
    exact List.takeWhile_cons_of_neg (by simp [hb])
  | cons a as ih =>
    by_cases ha : p a
    · rw [List.cons_append, List.takeWhile_cons_of_pos ha, ih,
        List.takeWhile_cons_of_pos ha]
    · rw [List.cons_append, List.takeWhile_cons_of_neg ha,
        List.takeWhile_cons_of_neg ha]

theorem dropWhile_append_neg {α : Type} {p : α → Bool} {b : α} (A : List α)
    {B : List α} (hb : p b = false) :
    (A ++ b :: B).dropWhile p = A.dropWhile p ++ b :: B := by
  induction A with
  | nil =>
    show (b :: B).dropWhile p = b :: B
    exact List.dropWhile_cons_of_neg (by simp [hb])
  | cons a as ih =>
    by_cases ha : p a
    · rw [List.cons_append, List.dropWhile_cons_of_pos ha, ih,
        List.dropWhile_cons_of_pos ha]
    · rw [List.cons_append, List.dropWhile_cons_of_neg ha,
        List.dropWhile_cons_of_neg ha, List.cons_append]

theorem tokenizeF_succ_digit (fuel : Nat) {c : Char} (cs : List Char)
    (h : c.isDigit = true) :
    tokenizeF (fuel + 1) (c :: cs) =
      (c :: cs.takeWhile Char.isDigit).asString ::
        tokenizeF fuel (cs.dropWhile Char.isDigit) := by
  simp only [tokenizeF]
  rw [if_pos h]

theorem tokenizeF_succ_lower (fuel : Nat) {c : Char} (cs : List Char)
    (h1 : c.isDigit = false) (h2 : c.isLower = true) :
    tokenizeF (fuel + 1) (c :: cs) =
      (c :: cs.takeWhile Char.isLower).asString ::
        tokenizeF fuel (cs.dropWhile Char.isLower) := by
  have h1' : ¬c.isDigit = true := by simp [h1]
  simp only [tokenizeF]
  rw [if_neg h1', if_pos h2]

theorem tokenizeF_succ_dot (fuel : Nat) {c : Char} (cs : List Char)
    (h1 : c.isDigit = false) (h2 : c.isLower = false) (h3 : c = '.') :
    tokenizeF (fuel + 1) (c :: cs) = "." :: tokenizeF fuel cs := by
  have h1' : ¬c.isDigit = true := by simp [h1]
  have h2' : ¬c.isLower = true := by simp [h2]
  simp only [tokenizeF]
  rw [if_neg h1', if_neg h2', if_pos h3]

theorem tokenizeF_succ_dash (fuel : Nat) {c : Char} (cs : List Char)
    (h1 : c.isDigit = false) (h2 : c.isLower = false) (h3 : c ≠ '.')
    (h4 : c = '-') :
    tokenizeF (fuel + 1) (c :: cs) = "-" :: tokenizeF fuel cs := by
  have h1' : ¬c.isDigit = true := by simp [h1]
  have h2' : ¬c.isLower = true := by simp [h2]
  simp only [tokenizeF]
  rw [if_neg h1', if_neg h2', if_neg h3, if_pos h4]

theorem tokenizeF_succ_skip (fuel : Nat) {c : Char} (cs : List Char)
    (h1 : c.isDigit = false) (h2 : c.isLower = false) (h3 : c ≠ '.')
    (h4 : c ≠ '-') :
    tokenizeF (fuel + 1) (c :: cs) = tokenizeF fuel cs := by
  have h1' : ¬c.isDigit = true := by simp [h1]
  have h2' : ¬c.isLower = true := by simp [h2]
  simp only [tokenizeF]
  rw [if_neg h1', if_neg h2', if_neg h3, if_neg h4]

theorem tokenizeF_congr : ∀ (f1 f2 : Nat) (cs : List Char),
    cs.length ≤ f1 → cs.length ≤ f2 → tokenizeF f1 cs = tokenizeF f2 cs := by
  intro f1
  induction f1 with
  | zero =>
    intro f2 cs h1 _
    have : cs = [] := List.length_eq_zero.mp (Nat.le_zero.mp h1)
    subst this
    cases f2 <;> rfl
  | succ f1 ih =>
    intro f2 cs h1 h2
    cases cs with
    | nil => cases f2 <;> rfl
    | cons c rest =>
      cases f2 with
      | zero => exact absurd h2 (by simp)
      | succ f2 =>
        simp only [List.length_cons, Nat.succ_le_succ_iff] at h1 h2
        by_cases hd : c.isDigit = true
        · rw [tokenizeF_succ_digit _ _ hd, tokenizeF_succ_digit _ _ hd,
            ih f2 _ (Nat.le_trans (length_dropWhile_le _ _) h1)
              (Nat.le_trans (length_dropWhile_le _ _) h2)]
        · have hd' : c.isDigit = false := Bool.eq_false_iff.mpr hd
          by_cases hl : c.isLower = true
          · rw [tokenizeF_succ_lower _ _ hd' hl, tokenizeF_succ_lower _ _ hd' hl,
              ih f2 _ (Nat.le_trans (length_dropWhile_le _ _) h1)
                (Nat.le_trans (length_dropWhile_le _ _) h2)]
          · have hl' : c.isLower = false := Bool.eq_false_iff.mpr hl
            by_cases hdot : c = '.'
            · rw [tokenizeF_succ_dot _ _ hd' hl' hdot,
                tokenizeF_succ_dot _ _ hd' hl' hdot, ih f2 _ h1 h2]
            · by_cases hdash : c = '-'
              · rw [tokenizeF_succ_dash _ _ hd' hl' hdot hdash,
                  tokenizeF_succ_dash _ _ hd' hl' hdot hdash, ih f2 _ h1 h2]
              · rw [tokenizeF_succ_skip _ _ hd' hl' hdot hdash,
                  tokenizeF_succ_skip _ _ hd' hl' hdot hdash, ih f2 _ h1 h2]

theorem tokenize_digit {c : Char} (cs : List Char) (h : c.isDigit = true) :
    tokenize (c :: cs) =
      (c :: cs.takeWhile Char.isDigit).asString ::
        tokenize (cs.dropWhile Char.isDigit) := by
  rw [tokenize, List.length_cons, tokenizeF_succ_digit _ _ h]
  rw [tokenize, tokenizeF_congr _ _ _ (length_dropWhile_le _ _) (Nat.le_refl _)]

theorem tokenize_lower {c : Char} (cs : List Char) (h1 : c.isDigit = false)
    (h2 : c.isLower = true) :
    tokenize (c :: cs) =
      (c :: cs.takeWhile Char.isLower).asString ::
        tokenize (cs.dropWhile Char.isLower) := by
  rw [tokenize, List.length_cons, tokenizeF_succ_lower _ _ h1 h2]
  rw [tokenize, tokenizeF_congr _ _ _ (length_dropWhile_le _ _) (Nat.le_refl _)]

theorem tokenize_dot (cs : List Char) :
    tokenize ('.' :: cs) = "." :: tokenize cs := by
  rw [tokenize, List.length_cons, tokenizeF_succ_dot _ _ (by decide) (by decide) rfl]
  rw [tokenize]

theorem tokenize_dash (cs : List Char) :
    tokenize ('-' :: cs) = "-" :: tokenize cs := by
  rw [tokenize, List.length_cons,
    tokenizeF_succ_dash _ _ (by decide) (by decide) (by decide) rfl]
  rw [tokenize]

theorem tokenize_skip {c : Char} (cs : List Char) (h1 : c.isDigit = false)
    (h2 : c.isLower = false) (h3 : c ≠ '.') (h4 : c ≠ '-') :
    tokenize (c :: cs) = tokenize cs := by
  rw [tokenize, List.length_cons, tokenizeF_succ_skip _ _ h1 h2 h3 h4]
  rw [tokenize]

theorem isDigit_iff {c : Char} : c.isDigit = true ↔ 48 ≤ c.toNat ∧ c.toNat ≤ 57 := by
  rw [Char.isDigit]
  simp only [Bool.and_eq_true, decide_eq_true_eq, ge_iff_le]
  exact ⟨fun ⟨h1, h2⟩ => ⟨h1, h2⟩, fun ⟨h1, h2⟩ => ⟨h1, h2⟩⟩

theorem isLower_iff {c : Char} : c.isLower = true ↔ 97 ≤ c.toNat ∧ c.toNat ≤ 122 := by
  rw [Char.isLower]
  simp only [Bool.and_eq_true, decide_eq_true_eq, ge_iff_le]
  exact ⟨fun ⟨h1, h2⟩ => ⟨h1, h2⟩, fun ⟨h1, h2⟩ => ⟨h1, h2⟩⟩

theorem isUpper_iff {c : Char} : c.isUpper = true ↔ 65 ≤ c.toNat ∧ c.toNat ≤ 90 := by
  rw [Char.isUpper]
  simp only [Bool.and_eq_true, decide_eq_true_eq, ge_iff_le]
  exact ⟨fun ⟨h1, h2⟩ => ⟨h1, h2⟩, fun ⟨h1, h2⟩ => ⟨h1, h2⟩⟩

theorem lower_not_digit {c : Char} (h : c.isLower = true) : c.isDigit = false := by
  rw [Bool.eq_false_iff]
  intro hd
  have h1 := isLower_iff.mp h
  have h2 := isDigit_iff.mp hd
  omega

theorem digit_not_lower {c : Char} (h : c.isDigit = true) : c.isLower = false := by
  rw [Bool.eq_false_iff]
  intro hl
  have h1 := isDigit_iff.mp h
  have h2 := isLower_iff.mp hl
  omega

theorem toLower_eq_self {c : Char} (h : c.toNat < 65 ∨ 90 < c.toNat) :
    c.toLower = c := by
  rw [Char.toLower, if_neg (by omega)]

theorem digit_toLower {c : Char} (h : c.isDigit = true) : c.toLower = c := by
  have h1 := isDigit_iff.mp h
  exact toLower_eq_self (by omega)

theorem lower_toLower {c : Char} (h : c.isLower = true) : c.toLower = c := by
  have h1 := isLower_iff.mp h
  exact toLower_eq_self (by omega)

theorem tokenize_append (A : List Char) {b : Char} (B : List Char)
    (hb1 : b.isDigit = false) (hb2 : b.isLower = false) :
    tokenize (A ++ b :: B) = tokenize A ++ tokenize (b :: B) := by
  have H : ∀ (n : Nat) (A : List Char), A.length ≤ n →
      tokenize (A ++ b :: B) = tokenize A ++ tokenize (b :: B) := by
    intro n
    induction n with
    | zero =>
      intro A hA
      have : A = [] := List.length_eq_zero.mp (Nat.le_zero.mp hA)
      subst this
      rfl
    | succ n ih =>
      intro A hA
      cases A with
      | nil => rfl
      | cons c cs =>
        simp only [List.length_cons, Nat.succ_le_succ_iff] at hA
        rw [List.cons_append]
        by_cases hd : c.isDigit = true
        · rw [tokenize_digit _ hd, tokenize_digit _ hd,
            takeWhile_append_neg _ hb1, dropWhile_append_neg _ hb1,
            ih _ (Nat.le_trans (length_dropWhile_le _ _) hA), List.cons_append]
        · have hd' : c.isDigit = false := Bool.eq_false_iff.mpr hd
          by_cases hl : c.isLower = true
          · rw [tokenize_lower _ hd' hl, tokenize_lower _ hd' hl,
              takeWhile_append_neg _ hb2, dropWhile_append_neg _ hb2,
              ih _ (Nat.le_trans (length_dropWhile_le _ _) hA), List.cons_append]
          · have hl' : c.isLower = false := Bool.eq_false_iff.mpr hl
            by_cases hdot : c = '.'
            · subst hdot
              rw [tokenize_dot, tokenize_dot, ih _ hA, List.cons_append]
            · by_cases hdash : c = '-'
              · subst hdash
                rw [tokenize_dash, tokenize_dash, ih _ hA, List.cons_append]
              · rw [tokenize_skip _ hd' hl' hdot hdash,
                  tokenize_skip _ hd' hl' hdot hdash, ih _ hA]
  exact H A.length A (Nat.le_refl _)

theorem tokenize_letter_run {t : List Char} (B : List Char) (h1 : t ≠ [])
    (h2 : ∀ c ∈ t, c.isLower = true)
    (hB : ∀ b, B.head? = some b → b.isLower = false) :
    tokenize (t ++ B) = t.asString :: tokenize B := by
  cases t with
  | nil => exact absurd rfl h1
  | cons c cs =>
    have hc : c.isLower = true := h2 c (by simp)
    rw [List.cons_append, tokenize_lower _ (lower_not_digit hc) hc,
      takeWhile_append_all (fun x hx => h2 x (by simp [hx])) hB,
      dropWhile_append_all (fun x hx => h2 x (by simp [hx])) hB]

theorem tokenize_all_skip {cs : List Char}
    (h : ∀ c ∈ cs, c.isDigit = false ∧ c.isLower = false ∧ c ≠ '.' ∧ c ≠ '-') :
    tokenize cs = [] := by
  induction cs with
  | nil => rfl
  | cons c rest ih =>
    obtain ⟨h1, h2, h3, h4⟩ := h c (by simp)
    rw [tokenize_skip _ h1 h2 h3 h4]
    exact ih (fun x hx => h x (by simp [hx]))

theorem tokens_of_digit_dot {cs : List Char}
    (h : ∀ c ∈ cs, c.isDigit = true ∨ c = '.') :
    ∀ tok ∈ tokenize cs, tok = "." ∨
      (tok.data ≠ [] ∧ tok.data.all Char.isDigit = true ∧
       ∀ ch ∈ tok.data, ch ∈ cs) := by
  have H : ∀ (n : Nat) (cs : List Char), cs.length ≤ n →
      (∀ c ∈ cs, c.isDigit = true ∨ c = '.') →
      ∀ tok ∈ tokenize cs, tok = "." ∨
        (tok.data ≠ [] ∧ tok.data.all Char.isDigit = true ∧
         ∀ ch ∈ tok.data, ch ∈ cs) := by
    intro n
    induction n with
    | zero =>
      intro cs hl _
      have : cs = [] := List.length_eq_zero.mp (Nat.le_zero.mp hl)
      subst this
      intro tok htok
      exact absurd htok (by simp [tokenize, tokenizeF])
    | succ n ih =>
      intro cs hl hcs
      cases cs with
      | nil =>
        intro tok htok
        exact absurd htok (by simp [tokenize, tokenizeF])
      | cons c rest =>
        simp only [List.length_cons, Nat.succ_le_succ_iff] at hl
        rcases hcs c (by simp) with hd | hdot
        · rw [tokenize_digit _ hd]
          intro tok htok
          rcases List.mem_cons.mp htok with heq | hmem
          · subst heq
            refine Or.inr ⟨by simp [List.asString], ?_, ?_⟩
            · rw [List.asString]
              rw [List.all_eq_true]
              intro ch hch
              rcases List.mem_cons.mp hch with rfl | hch'
              · exact hd
              · exact List.mem_takeWhile_imp hch'
            · rw [List.asString]
              intro ch hch
              rcases List.mem_cons.mp hch with rfl | hch'
              · simp
              · exact List.mem_cons_of_mem _ ((List.takeWhile_sublist _).mem hch')
          · have hrec := ih (rest.dropWhile Char.isDigit)
              (Nat.le_trans (length_dropWhile_le _ _) hl)
              (fun x hx => hcs x (List.mem_cons_of_mem _ ((List.dropWhile_sublist _).mem hx)))
              tok hmem
            rcases hrec with h1 | ⟨h1, h2, h3⟩
            · exact Or.inl h1
            · exact Or.inr ⟨h1, h2, fun ch hch =>
                List.mem_cons_of_mem _ ((List.dropWhile_sublist _).mem (h3 ch hch))⟩
        · subst hdot
          rw [tokenize_dot]
          intro tok htok
          rcases List.mem_cons.mp htok with heq | hmem
          · exact Or.inl heq
          · have hrec := ih rest hl (fun x hx => hcs x (by simp [hx])) tok hmem
            rcases hrec with h1 | ⟨h1, h2, h3⟩
            · exact Or.inl h1
            · exact Or.inr ⟨h1, h2, fun ch hch => by simp [h3 ch hch]⟩
  exact H cs.length cs (Nat.le_refl _) h

theorem map_toLower_of_digit_dot {cs : List Char}
    (h : ∀ c ∈ cs, c.isDigit = true ∨ c = '.') :
    cs.map Char.toLower = cs := by
  induction cs with
  | nil => rfl
  | cons c rest ih =>
    rw [List.map_cons, ih (fun x hx => h x (by simp [hx]))]
    rcases h c (by simp) with hd | hdot
    · rw [digit_toLower hd]
    · subst hdot
      rfl

theorem map_toLower_of_lower {cs : List Char}
    (h : ∀ c ∈ cs, c.isLower = true) :
    cs.map Char.toLower = cs := by
  induction cs with
  | nil => rfl
  | cons c rest ih =>
    rw [List.map_cons, ih (fun x hx => h x (by simp [hx])), lower_toLower (h c (by simp))]

theorem data_star_append (p : String) : ("*" ++ p).data = '*' :: p.data := by
  rw [String.data_append]
  rfl

theorem headIs_of_data {s : String} {c d : Char} {rest : List Char}
    (h : s.data = d :: rest) : headIs c s = (d == c) := by
  rw [headIs, h]

theorem headIsDigit_of_data {s : String} {d : Char} {rest : List Char}
    (h : s.data = d :: rest) : headIsDigit s = d.isDigit := by
  rw [headIsDigit, h]

theorem headIs_star_of_digit {e : String} (h1 : e.data ≠ [])
    (h2 : e.data.all Char.isDigit = true) : headIs '*' e = false := by
  cases hd : e.data with
  | nil => exact absurd hd h1
  | cons c rest =>
    rw [headIs_of_data hd]
    have hc : c.isDigit = true := List.all_eq_true.mp (hd ▸ h2) c (by simp)
    have hb := isDigit_iff.mp hc
    have : c ≠ '*' := by
      intro heq
      subst heq
      exact absurd hb (by decide)
    simp [this]

theorem digit_string_ne_star_prefixed {e p : String} (h1 : e.data ≠ [])
    (h2 : e.data.all Char.isDigit = true) : e ≠ "*" ++ p := by
  intro heq
  have := headIs_star_of_digit h1 h2
  rw [heq, headIs_of_data (data_star_append p)] at this
  simp at this

theorem emitToken_append (acc : List String) (tok : String) :
    emitToken acc tok = acc ++ emitToken [] tok := by
  simp only [emitToken]
  split
  · simp
  · split <;> simp

theorem foldl_emit_append (T : List String) :
    ∀ acc, List.foldl emitToken acc T = acc ++ List.foldl emitToken [] T := by
  induction T with
  | nil => intro acc; simp
  | cons t T ih =>
    intro acc
    rw [List.foldl_cons, List.foldl_cons, ih (emitToken acc t),
      ih (emitToken [] t), emitToken_append acc t, List.append_assoc]

theorem normalize_of_all_digit {tok : String}
    (h2 : tok.data.all Char.isDigit = true) : normalize tok = tok := by
  have k1 : tok ≠ "pre" := by rintro rfl; exact absurd h2 (by decide)
  have k2 : tok ≠ "preview" := by rintro rfl; exact absurd h2 (by decide)
  have k3 : tok ≠ "-" := by rintro rfl; exact absurd h2 (by decide)
  have k4 : tok ≠ "rc" := by rintro rfl; exact absurd h2 (by decide)
  have k5 : tok ≠ "dev" := by rintro rfl; exact absurd h2 (by decide)
  have k6 : tok ≠ "alpha" := by rintro rfl; exact absurd h2 (by decide)
  have k7 : tok ≠ "beta" := by rintro rfl; exact absurd h2 (by decide)
  unfold normalize
  rw [if_neg k1, if_neg k2, if_neg k3, if_neg k4, if_neg k5, if_neg k6, if_neg k7]

theorem string_ne_empty_of_data {s : String} (h : s.data ≠ []) : s ≠ "" := by
  intro heq
  rw [heq] at h
  exact h rfl

theorem emit_of_all_digit {tok : String} (acc : List String)
    (h1 : tok.data ≠ []) (h2 : tok.data.all Char.isDigit = true) :
    emitToken acc tok = acc ++ [pad8 tok] := by
  obtain ⟨c, rest, hdata⟩ : ∃ c rest, tok.data = c :: rest := by
    cases hd : tok.data with
    | nil => exact absurd hd h1
    | cons c rest => exact ⟨c, rest, rfl⟩
  have hc : c.isDigit = true := List.all_eq_true.mp (hdata ▸ h2) c (by simp)
  have hne1 : tok ≠ "" := string_ne_empty_of_data h1
  have hne2 : tok ≠ "." := by
    rintro rfl
    exact absurd h2 (by decide)
  simp only [emitToken, normalize_of_all_digit h2]
  rw [if_neg (by simp [hne1, hne2]), if_pos (by rw [headIsDigit_of_data hdata]; exact hc)]

theorem normalize_cases (t : String) :
    normalize t = "c" ∨ normalize t = "final-" ∨ normalize t = "@" ∨
    normalize t = "a" ∨ normalize t = "b" ∨ normalize t = t := by
  unfold normalize
  repeat' split
  all_goals simp

theorem emit_letter_run {t : String} (acc : List String) (h1 : t.data ≠ [])
    (h2 : ∀ c ∈ t.data, c.isLower = true) :
    emitToken acc t = acc ++ ["*" ++ normalize t] := by
  obtain ⟨c, rest, hdata⟩ : ∃ c rest, t.data = c :: rest := by
    cases hd : t.data with
    | nil => exact absurd hd h1
    | cons c rest => exact ⟨c, rest, rfl⟩
  have hc : c.isLower = true := h2 c (by rw [hdata]; simp)
  rcases normalize_cases t with h | h | h | h | h | h <;>
    simp only [emitToken, h]
  · rw [if_neg (by decide), if_neg (by decide)]
  · rw [if_neg (by decide), if_neg (by decide)]
  · rw [if_neg (by decide), if_neg (by decide)]
  · rw [if_neg (by decide), if_neg (by decide)]
  · rw [if_neg (by decide), if_neg (by decide)]
  · have hne1 : t ≠ "" := string_ne_empty_of_data h1
    have hne2 : t ≠ "." := by
      rintro rfl
      exact absurd (h2 '.' (by decide)) (by decide)
    rw [if_neg (by simp [hne1, hne2]),
      if_neg (by rw [headIsDigit_of_data hdata, lower_not_digit hc]; simp)]

theorem dropWhile_idem {α : Type} (p : α → Bool) (l : List α) :
    (l.dropWhile p).dropWhile p = l.dropWhile p := by
  induction l with
  | nil => rfl
  | cons a as ih =>
    by_cases h : p a = true
    · rw [List.dropWhile_cons_of_pos h]
      exact ih
    · rw [List.dropWhile_cons_of_neg (by simp [h]), List.dropWhile_cons_of_neg (by simp [h])]

theorem popWhileLast_append_single (l : List String) (x : String) :
    popWhileLast (l ++ [x]) x = popWhileLast l x := by
  rw [popWhileLast, popWhileLast, List.reverse_append]
  congr 1
  show List.dropWhile (fun y => y == x) (x :: l.reverse) = _
  rw [List.dropWhile_cons_of_pos (by simp)]

theorem popWhileLast_of_all_ne {l : List String} {x : String}
    (h : ∀ y ∈ l, y ≠ x) : popWhileLast l x = l := by
  rw [popWhileLast]
  have hd : l.reverse.dropWhile (fun y => y == x) = l.reverse := by
    cases hr : l.reverse with
    | nil => rfl
    | cons a as =>
      have ha : a ∈ l := List.mem_reverse.mp (by rw [hr]; simp)
      rw [List.dropWhile_cons_of_neg (by simp [h a ha])]
  rw [hd, List.reverse_reverse]

theorem popWhileLast_idem (l : List String) (x : String) :
    popWhileLast (popWhileLast l x) x = popWhileLast l x := by
  rw [popWhileLast, popWhileLast, List.reverse_reverse, dropWhile_idem]

theorem popWhileLast_mem {l : List String} {x y : String}
    (h : y ∈ popWhileLast l x) : y ∈ l := by
  rw [popWhileLast, List.mem_reverse] at h
  exact List.mem_reverse.mp ((List.dropWhile_sublist _).subset h)

theorem popWhileLast_barrier {v x : String} (hne : v ≠ x) (A W : List String) :
    popWhileLast (A ++ v :: W) x = A ++ v :: popWhileLast W x := by
  rw [popWhileLast, popWhileLast, List.reverse_append, List.reverse_cons,
    List.append_assoc, List.singleton_append,
    dropWhile_append_neg _ (by simp [hne])]
  simp

theorem foldl_postStep_nonstar {parts : List String}
    (h : ∀ x ∈ parts, headIs '*' x = false) :
    ∀ acc, List.foldl postStep acc parts = acc ++ parts := by
  induction parts with
  | nil => intro acc; simp
  | cons p ps ih =>
    intro acc
    rw [List.foldl_cons, postStep, if_neg (by simp [h p (by simp)]),
      ih (fun x hx => h x (by simp [hx]))]
    simp

theorem foldl_postStep_protected {x : String} (hx1 : x ≠ "*final-")
    (hx2 : x ≠ "00000000") (parts : List String) :
    ∀ (A W0 : List String), ∃ W,
      List.foldl postStep (A ++ x :: W0) parts = A ++ x :: W := by
  induction parts with
  | nil => intro A W0; exact ⟨W0, by simp⟩
  | cons p ps ih =>
    intro A W0
    rw [List.foldl_cons]
    by_cases hstar : headIs '*' p = true
    · rw [postStep, if_pos hstar]
      by_cases hlt : cmpStr p "*final" = Ordering.lt
      · rw [if_pos hlt, popWhileLast_barrier hx1, popWhileLast_barrier hx2,
          List.append_assoc, List.cons_append]
        exact ih A _
      · rw [if_neg hlt, popWhileLast_barrier hx2, List.append_assoc,
          List.cons_append]
        exact ih A _
    · rw [postStep, if_neg hstar, List.append_assoc, List.cons_append]
      exact ih A _

theorem cmpChar_refl (a : Char) : cmpChar a a = Ordering.eq := by
  rw [cmpChar, if_neg (by omega), if_neg (by omega)]

theorem cmpCharList_refl (l : List Char) : cmpCharList l l = Ordering.eq := by
  induction l with
  | nil => rfl
  | cons a as ih =>
    simp only [cmpCharList, cmpChar_refl]
    exact ih

theorem cmpStr_refl (s : String) : cmpStr s s = Ordering.eq := by
  rw [cmpStr]
  exact cmpCharList_refl _

theorem cmpList_append_common (A X Y : List String) :
    cmpList (A ++ X) (A ++ Y) = cmpList X Y := by
  induction A with
  | nil => rfl
  | cons a as ih =>
    rw [List.cons_append, List.cons_append]
    simp only [cmpList, cmpStr_refl]
    exact ih

theorem cmpChar_swap {a b : Char} (h : cmpChar a b = Ordering.lt) :
    cmpChar b a = Ordering.gt := by
  rw [cmpChar] at h ⊢
  by_cases h1 : a.toNat < b.toNat
  · rw [if_neg (by omega), if_pos h1]
  · rw [if_neg h1] at h
    by_cases h2 : b.toNat < a.toNat
    · rw [if_pos h2] at h
      exact absurd h (by simp)
    · rw [if_neg h2] at h
      exact absurd h (by simp)

theorem cmpChar_eq_symm {a b : Char} (h : cmpChar a b = Ordering.eq) :
    cmpChar b a = Ordering.eq := by
  rw [cmpChar] at h ⊢
  by_cases h1 : a.toNat < b.toNat
  · rw [if_pos h1] at h
    exact absurd h (by simp)
  · by_cases h2 : b.toNat < a.toNat
    · rw [if_neg h1, if_pos h2] at h
      exact absurd h (by simp)
    · rw [if_neg h2, if_neg h1]

theorem cmpCharList_swap {a b : List Char} (h : cmpCharList a b = Ordering.lt) :
    cmpCharList b a = Ordering.gt := by
  induction a generalizing b with
  | nil =>
    cases b with
    | nil => exact absurd h (by decide)
    | cons y ys => rfl
  | cons x xs ih =>
    cases b with
    | nil =>
      rw [show cmpCharList (x :: xs) [] = Ordering.gt from rfl] at h
      exact absurd h (by decide)
    | cons y ys =>
      simp only [cmpCharList] at h ⊢
      cases hc : cmpChar x y with
      | lt =>
        rw [cmpChar_swap hc]
      | eq =>
        rw [cmpChar_eq_symm hc]
        rw [hc] at h
        exact ih h
      | gt =>
        rw [hc] at h
        exact absurd h (by simp)

theorem string_data_ext {a b : String} (h : a.data = b.data) : a = b := by
  cases a
  cases b
  exact congrArg String.mk h

theorem pad8_data (s : String) :
    (pad8 s).data = List.replicate (8 - s.data.length) '0' ++ s.data := rfl

theorem pad8_props {s : String} (h1 : s.data ≠ [])
    (h2 : s.data.all Char.isDigit = true) :
    (pad8 s).data ≠ [] ∧ (pad8 s).data.all Char.isDigit = true := by
  rw [pad8_data]
  refine ⟨by simp [h1], ?_⟩
  rw [List.all_append]
  refine (Bool.and_eq_true _ _).mpr ⟨?_, h2⟩
  rw [List.all_eq_true]
  intro b hb
  rw [List.eq_of_mem_replicate hb]
  decide

theorem emit_tokens_digit {T : List String}
    (h : ∀ tok ∈ T, tok = "." ∨ (tok.data ≠ [] ∧ tok.data.all Char.isDigit = true)) :
    ∀ e ∈ List.foldl emitToken [] T,
      e.data ≠ [] ∧ e.data.all Char.isDigit = true := by
  induction T with
  | nil => intro e he; exact absurd he (by simp)
  | cons t T ih =>
    intro e he
    rw [List.foldl_cons, foldl_emit_append] at he
    rcases List.mem_append.mp he with h1 | h2
    · rcases h t (by simp) with rfl | ⟨hne, hdig⟩
      · rw [show emitToken [] "." = [] from rfl] at h1
        exact absurd h1 (by simp)
      · rw [emit_of_all_digit [] hne hdig] at h1
        rw [List.nil_append, List.mem_singleton] at h1
        subst h1
        exact pad8_props hne hdig
    · exact ih (fun tok htok => h tok (by simp [htok])) e h2

theorem standard_release_chars {s : String} (hs : standard_release s = true) :
    ∀ c ∈ s.data, c.isDigit = true ∨ c = '.' := by
  rw [standard_release, List.all_eq_true] at hs
  intro c hc
  simpa using hs c hc

theorem parse_version_standard {s : String} (hs : standard_release s = true) :
    parse_version s =
      popWhileLast (List.foldl emitToken [] (tokenize s.data)) "00000000" ++
        ["*final"] := by
  have hchars := standard_release_chars hs
  have htoks := tokens_of_digit_dot hchars
  have hE : ∀ e ∈ List.foldl emitToken [] (tokenize s.data),
      e.data ≠ [] ∧ e.data.all Char.isDigit = true :=
    emit_tokens_digit (fun tok htok => (htoks tok htok).imp id (fun hh => ⟨hh.1, hh.2.1⟩))
  rw [parse_version, rawParts, map_toLower_of_digit_dot hchars, postprocess,
    List.foldl_append,
    foldl_postStep_nonstar (fun x hx => headIs_star_of_digit (hE x hx).1 (hE x hx).2) [],
    List.nil_append, List.foldl_cons, List.foldl_nil, postStep,
    if_pos (by decide), if_neg (by decide)]

/-! ## Claim theorems: concrete ordering facts -/

/-- C4: the `parse_version` ordering satisfies
`1.0.0 > 1.0.0-rc1 > 1.0.0-beta > 1.0.0-alpha` under element-wise
lexicographic sequence comparison. -/
theorem parse_version_prerelease_chain :
    cmpList (parse_version "1.0.0") (parse_version "1.0.0-rc1") = Ordering.gt ∧
    cmpList (parse_version "1.0.0-rc1") (parse_version "1.0.0-beta") = Ordering.gt ∧
    cmpList (parse_version "1.0.0-beta") (parse_version "1.0.0-alpha") = Ordering.gt := by
  decide

/-- C5: numeric components order numerically (`2.4.1 > 2.4.0`) and trailing
zero components do not change the key (`parse_version "1.0" =
parse_version "1.0.0"`). -/
theorem parse_version_numeric_and_trailing_zero :
    cmpList (parse_version "2.4.1") (parse_version "2.4.0") = Ordering.gt ∧
    parse_version "1.0" = parse_version "1.0.0" := by
  decide

/-- C1 counterexample: `"1.0.0-z"` is a pre-release of the standard release
`"1.0.0"` (same numeric prefix, extra hyphen and letter), yet
`parse_version "1.0.0"` compares strictly BELOW `parse_version "1.0.0-z"`,
refuting the universally quantified claim. -/
theorem parse_version_z_tag_counterexample :
    standard_release "1.0.0" = true ∧
    standard_release "1.0.0-z" = false ∧
    cmpList (parse_version "1.0.0") (parse_version "1.0.0-z") = Ordering.lt := by
  decide

/-- C2 counterexample: `"*a"` is a non-numeric token emitted by
`parse_version` (for input `"1.0.0-alpha"`), distinct from `"*final"`, and
`"00000000"` is a zero-padded numeric token, yet the star-prefixed token
compares lexicographically LESS than the padded numeric token, not greater. -/
theorem star_token_counterexample :
    "*a" ∈ parse_version "1.0.0-alpha" ∧
    "*a" ≠ "*final" ∧
    "00000000".data.length = 8 ∧
    "00000000".data.all Char.isDigit = true ∧
    cmpStr "*a" "00000000" = Ordering.lt := by
  decide

/-- C10 counterexample: `"000000000"` (nine zeros) consists only of zeros
and dots, yet `parse_version` keeps its 9-character digit run (only the
exact 8-character `"00000000"` is popped), so the key is not `["*final"]`
and does not compare equal to the key of `"0"`. -/
theorem parse_version_nine_zeros_counterexample :
    "000000000".data.all (fun c => c == '0' || c == '.') = true ∧
    parse_version "000000000" ≠ ["*final"] ∧
    cmpList (parse_version "000000000") (parse_version "0") ≠ Ordering.eq := by
  decide

/-- C9: with running version `"1.0.0-alpha.1"` and non-yanked candidates
`1.0.0`, `1.0.0-alpha.2`, `0.9.0`: prereleases are included (the running
version is not a standard release), the descending `parse_version` sort
puts `"1.0.0"` first, `crates_io` selects it, the running key is strictly
below it, and `check` returns a present outcome with
`available_version = "1.0.0"`. -/
theorem check_prerelease_scenario :
    standard_release "1.0.0-alpha.1" = false ∧
    (stableSortBy
        (fun a b => cmpList (parse_version b.num) (parse_version a.num) != Ordering.gt)
        [⟨"1.0.0", "2024-01-01T00:00:00Z", false⟩,
         ⟨"1.0.0-alpha.2", "2024-01-02T00:00:00Z", false⟩,
         ⟨"0.9.0", "2023-01-01T00:00:00Z", false⟩]).map VersionInfo.num =
      ["1.0.0", "1.0.0-alpha.2", "0.9.0"] ∧
    (crates_io respScenario2 true).toOption.map CratesIoData.version = some "1.0.0" ∧
    cmpList (parse_version "1.0.0-alpha.1") (parse_version "1.0.0") = Ordering.lt ∧
    (UpdateChecker.check ⟨false, emptyCache⟩ 1000 "demo" "1.0.0-alpha.1"
        respScenario2 dateParse0).map (fun x => x.1.map UpdateResult.available_version) =
      some (some "1.0.0") := by
  exact ⟨by decide, by decide, by decide, by decide, rfl⟩

/-- C3 (code bug): with `bypass_cache = false` and a cached entry for the
queried key whose stored timestamp (1001) lies in the future of the current
clock (1000), the dev-profile `u64` subtraction `now - entry.timestamp`
underflows and `check` panics instead of returning an optional result. -/
theorem check_future_timestamp_panics :
    UpdateChecker.check ⟨false, futureCache⟩ 1000 "serde" "1.0.0"
      RegistryResponse.failure dateParse0 = none := by
  rfl

/-! ## Claim theorems: the cached check -/

/-- C6: with `bypass_cache = false`, a cached entry for the exact key that
is fresh (`now - timestamp < 3600`) is returned as-is — independent of the
registry response, with unchanged state and no disk write; an absent entry,
or one aged `≥ 3600` seconds, sends the check down the registry path. -/
theorem check_cache_hit_fresh_and_miss (self : UpdateChecker) (now : Nat)
    (name ver : String) (resp resp2 : RegistryResponse)
    (dateParse : String → Option Int) (hb : self.bypass_cache = false) :
    (∀ e, self.cache (name, ver) = some e → e.timestamp ≤ now →
      (now - e.timestamp < CACHE_EXPIRE_TIME →
        self.check now name ver resp dateParse = some (e.result, self, none) ∧
        self.check now name ver resp dateParse =
          self.check now name ver resp2 dateParse) ∧
      (CACHE_EXPIRE_TIME ≤ now - e.timestamp →
        self.check now name ver resp dateParse =
          some (registryPath self now name ver resp dateParse))) ∧
    (self.cache (name, ver) = none →
      self.check now name ver resp dateParse =
        some (registryPath self now name ver resp dateParse)) := by
  constructor
  · intro e he hts
    unfold UpdateChecker.check u64SubChecked
    rw [hb]
    simp only [Bool.false_eq_true, if_false, he, if_pos hts]
    constructor
    · intro hfresh
      rw [if_pos hfresh, if_pos hfresh]
      exact ⟨rfl, rfl⟩
    · intro hstale
      rw [if_neg (by omega)]
  · intro hnone
    unfold UpdateChecker.check
    rw [hb]
    simp only [Bool.false_eq_true, if_false, hnone]

/-- Witness for C6 at a concrete state: a fresh hit at clock 1000 returns
the stored outcome untouched, and the same entry read at clock 5000 (age
4500 ≥ 3600) goes to the registry path. -/
theorem check_cache_hit_fresh_and_miss_witness :
    UpdateChecker.check ⟨false, demoCache⟩ 1000 "demo" "1.0.0"
        RegistryResponse.failure dateParse0 =
      some (some sampleResult, ⟨false, demoCache⟩, none) ∧
    UpdateChecker.check ⟨false, demoCache⟩ 5000 "demo" "1.0.0"
        RegistryResponse.failure dateParse0 =
      some (registryPath ⟨false, demoCache⟩ 5000 "demo" "1.0.0"
        RegistryResponse.failure dateParse0) := by
  refine ⟨?_, ?_⟩
  · exact (((check_cache_hit_fresh_and_miss ⟨false, demoCache⟩ 1000 "demo" "1.0.0"
      RegistryResponse.failure RegistryResponse.failure dateParse0 rfl).1
      ⟨500, some sampleResult⟩ rfl (by decide)).1 (by decide)).1
  · exact ((check_cache_hit_fresh_and_miss ⟨false, demoCache⟩ 5000 "demo" "1.0.0"
      RegistryResponse.failure RegistryResponse.failure dateParse0 rfl).1
      ⟨500, some sampleResult⟩ rfl (by decide)).2 (by decide)

/-- Any check that bypasses the cache, misses, or finds a stale entry runs
the registry tail of `UpdateChecker::check` (shared by the fail-open and
overwrite claims). -/
theorem check_registry_path_eq (self : UpdateChecker) (now : Nat)
    (name ver : String) (resp : RegistryResponse)
    (dateParse : String → Option Int)
    (h : self.bypass_cache = true ∨ self.cache (name, ver) = none ∨
         ∃ e, self.cache (name, ver) = some e ∧ e.timestamp ≤ now ∧
              CACHE_EXPIRE_TIME ≤ now - e.timestamp) :
    self.check now name ver resp dateParse =
      some (registryPath self now name ver resp dateParse) := by
  rcases h with hby | hnone | ⟨e, he, hts, hstale⟩
  · unfold UpdateChecker.check
    rw [hby]
    rfl
  · unfold UpdateChecker.check
    by_cases hby : self.bypass_cache
    · rw [hby]
      rfl
    · simp only [hby, Bool.false_eq_true, if_false, hnone]
  · unfold UpdateChecker.check u64SubChecked
    by_cases hby : self.bypass_cache
    · rw [hby]
      rfl
    · simp only [hby, Bool.false_eq_true, if_false, he, if_pos hts]
      rw [if_neg (by omega)]

/-- C7: whenever the check consults the registry (cache bypassed, missing
or stale) and the registry collaborator fails outright, or every returned
version is yanked, `check` returns normally with an absent outcome. -/
theorem check_fail_open (self : UpdateChecker) (now : Nat) (name ver : String)
    (resp : RegistryResponse) (dateParse : String → Option Int)
    (hpath : self.bypass_cache = true ∨ self.cache (name, ver) = none ∨
         ∃ e, self.cache (name, ver) = some e ∧ e.timestamp ≤ now ∧
              CACHE_EXPIRE_TIME ≤ now - e.timestamp)
    (h : resp = .failure ∨ ∃ vs, resp = .success vs ∧ ∀ v ∈ vs, v.yanked = true) :
    (self.check now name ver resp dateParse).map Prod.fst = some none := by
  rw [check_registry_path_eq self now name ver resp dateParse hpath]
  show some (registryOutcome name ver resp dateParse) = some none
  rcases h with rfl | ⟨vs, rfl, hy⟩
  · rfl
  · have hfil : vs.filter (fun v => !v.yanked) = [] := by
      rw [List.filter_eq_nil_iff]
      intro a ha
      simp [hy a ha]
    simp [registryOutcome, crates_io, hfil]

/-- Witness for C7: a transport failure and an all-yanked response both
produce an absent outcome at a concrete checker state. -/
theorem check_fail_open_witness :
    (UpdateChecker.check ⟨true, emptyCache⟩ 1000 "demo" "1.0.0"
        RegistryResponse.failure dateParse0).map Prod.fst = some none ∧
    (UpdateChecker.check ⟨false, emptyCache⟩ 1000 "demo" "1.0.0"
        (RegistryResponse.success [⟨"2.0.0", "2024-01-01T00:00:00Z", true⟩])
        dateParse0).map Prod.fst = some none := by
  refine ⟨?_, ?_⟩
  · exact check_fail_open ⟨true, emptyCache⟩ 1000 "demo" "1.0.0"
      RegistryResponse.failure dateParse0 (Or.inl rfl) (Or.inl rfl)
  · exact check_fail_open ⟨false, emptyCache⟩ 1000 "demo" "1.0.0"
      (RegistryResponse.success [⟨"2.0.0", "2024-01-01T00:00:00Z", true⟩])
      dateParse0 (Or.inr (Or.inl rfl)) (Or.inr ⟨_, rfl, by decide⟩)

/-- C8: on every check that reaches the registry path (cache bypassed,
missing entry, or stale entry), the entry for the queried key is
unconditionally overwritten with the current timestamp and the computed
outcome (present or absent), every other key is untouched, the whole
updated map is handed to the disk write, and the computed outcome is
returned. -/
theorem check_registry_overwrite (self : UpdateChecker) (now : Nat)
    (name ver : String) (resp : RegistryResponse)
    (dateParse : String → Option Int)
    (h : self.bypass_cache = true ∨ self.cache (name, ver) = none ∨
         ∃ e, self.cache (name, ver) = some e ∧ e.timestamp ≤ now ∧
              CACHE_EXPIRE_TIME ≤ now - e.timestamp) :
    ∃ st' : UpdateChecker,
      self.check now name ver resp dateParse =
        some (registryOutcome name ver resp dateParse, st', some st'.cache) ∧
      st'.cache (name, ver) =
        some ⟨now, registryOutcome name ver resp dateParse⟩ ∧
      (∀ k, k ≠ (name, ver) → st'.cache k = self.cache k) ∧
      st'.bypass_cache = self.bypass_cache := by
  have hstep := check_registry_path_eq self now name ver resp dateParse h
  refine ⟨{ bypass_cache := self.bypass_cache,
            cache := fun k => if k = (name, ver) then
                some ⟨now, registryOutcome name ver resp dateParse⟩
              else self.cache k }, ?_, by simp, fun k hk => by simp [hk], rfl⟩
  rw [hstep]
  rfl

/-- Witness for C8 at a concrete state: a bypassing checker with an empty
cache reaches the registry path. -/
theorem check_registry_overwrite_witness :
    ∃ st' : UpdateChecker,
      UpdateChecker.check ⟨true, emptyCache⟩ 1000 "demo" "1.0.0"
          RegistryResponse.failure dateParse0 =
        some (registryOutcome "demo" "1.0.0" RegistryResponse.failure dateParse0,
          st', some st'.cache) ∧
      st'.cache ("demo", "1.0.0") =
        some ⟨1000, registryOutcome "demo" "1.0.0" RegistryResponse.failure dateParse0⟩ ∧
      (∀ k, k ≠ ("demo", "1.0.0") → st'.cache k = emptyCache k) ∧
      st'.bypass_cache = true :=
  check_registry_overwrite ⟨true, emptyCache⟩ 1000 "demo" "1.0.0"
    RegistryResponse.failure dateParse0 (Or.inl rfl)

/-! ## Claim theorems: token ordering (amended C2) -/

/-- C2 (amended): every star-prefixed token emitted by `parse_version`
compares lexicographically LESS than every 8-character all-digit padded
numeric token (`'*'` is codepoint 42, digits start at 48). -/
theorem star_token_lt_padded_numeric (s t d : String)
    (_ht : t ∈ parse_version s) (hstar : headIs '*' t = true)
    (hlen : d.data.length = 8) (hdig : d.data.all Char.isDigit = true) :
    cmpStr t d = Ordering.lt := by
  match htd : t.data, hdd : d.data with
  | [], _ => rw [headIs, htd] at hstar; exact absurd hstar (by simp)
  | _ :: _, [] => rw [hdd] at hlen; exact absurd hlen (by simp)
  | c0 :: ts, c1 :: ds =>
    rw [headIs, htd] at hstar
    have hc0 : c0 = '*' := by simpa using hstar
    rw [hdd] at hdig
    have hc1 : c1.isDigit = true := by
      have := List.all_eq_true.mp hdig c1 (by simp)
      simpa using this
    have hb : 48 ≤ c1.toNat := by
      simp [Char.isDigit] at hc1
      exact hc1.1
    rw [cmpStr, htd, hdd, cmpCharList]
    have : cmpChar c0 c1 = Ordering.lt := by
      rw [hc0, cmpChar, if_pos (by simp; omega)]
    rw [this]

/-- Witness for the amended C2: the token `"*a"` of
`parse_version "1.0.0-alpha"` against the padded numeric token
`"00000001"`. -/
theorem star_token_lt_padded_numeric_witness :
    cmpStr "*a" "00000001" = Ordering.lt :=
  star_token_lt_padded_numeric "1.0.0-alpha" "*a" "00000001"
    (by decide) (by decide) (by decide) (by decide)

/-! ## Claim theorems: amended C1 and C10 -/

theorem headIs_star_append (p : String) : headIs '*' ("*" ++ p) = true := by
  rw [headIs_of_data (data_star_append p)]
  simp

theorem cmpStr_star_star (p q : String) :
    cmpStr ("*" ++ p) ("*" ++ q) = cmpStr p q := by
  rw [cmpStr, data_star_append, data_star_append]
  simp only [cmpCharList, cmpChar_refl]
  rfl

theorem emit_dash (acc : List String) : emitToken acc "-" = acc ++ ["*final-"] := by
  rw [emitToken_append]
  rfl

/-- C1 (amended): for every standard release `s` and every ASCII
pre-release of the shape `s ++ "-" ++ t ++ r` — `t` a nonempty maximal
lowercase-letter run whose normalized form sorts strictly below `"final"`,
`r` an ASCII remainder not extending the run — the release's key is
strictly greater than the pre-release's key. (`s` and `t` are ASCII
already by their hypotheses; the ASCII bound on `r` confines the statement
to the inputs on which this embedding coincides with the program: Rust's
Unicode lowercasing can map a non-ASCII character such as U+212A into
`[a-z]` and merge it into the tag run, changing the token sequence.) -/
theorem parse_version_pre_release_precedes (s t r : String)
    (hs : standard_release s = true)
    (ht1 : t.data ≠ [])
    (ht2 : ∀ c ∈ t.data, c.isLower = true)
    (hnt : cmpStr (normalize t) "final" = Ordering.lt)
    (_hascii : ∀ c ∈ r.data, c.toNat < 128)
    (hr : ∀ b, (r.data.map Char.toLower).head? = some b → b.isLower = false) :
    cmpList (parse_version s) (parse_version (s ++ "-" ++ t ++ r)) =
      Ordering.gt := by
  have hchars := standard_release_chars hs
  have htoks := tokens_of_digit_dot hchars
  have hE : ∀ e ∈ List.foldl emitToken [] (tokenize s.data),
      e.data ≠ [] ∧ e.data.all Char.isDigit = true :=
    emit_tokens_digit (fun tok htok => (htoks tok htok).imp id (fun hh => ⟨hh.1, hh.2.1⟩))
  -- the character data of the pre-release string, lowercased
  have hdata : (s ++ "-" ++ t ++ r).data.map Char.toLower =
      s.data ++ '-' :: (t.data ++ r.data.map Char.toLower) := by
    rw [String.data_append, String.data_append, String.data_append,
      show ("-" : String).data = ['-'] from rfl]
    rw [List.map_append, List.map_append, List.map_append,
      map_toLower_of_digit_dot hchars, map_toLower_of_lower ht2]
    simp
  -- its token list
  have htok : tokenize ((s ++ "-" ++ t ++ r).data.map Char.toLower) =
      tokenize s.data ++ "-" :: t :: tokenize (r.data.map Char.toLower) := by
    rw [hdata, tokenize_append _ _ (by decide) (by decide), tokenize_dash,
      tokenize_letter_run _ ht1 ht2 hr]
    rfl
  -- its emitted parts
  have hemit : List.foldl emitToken []
        (tokenize ((s ++ "-" ++ t ++ r).data.map Char.toLower)) =
      List.foldl emitToken [] (tokenize s.data) ++
        "*final-" :: ("*" ++ normalize t) ::
          List.foldl emitToken [] (tokenize (r.data.map Char.toLower)) := by
    rw [htok, List.foldl_append, List.foldl_cons, List.foldl_cons,
      emit_dash, emit_letter_run _ ht1 ht2, foldl_emit_append]
    simp
  -- abbreviations
  set E := List.foldl emitToken [] (tokenize s.data) with hEdef
  set Z := popWhileLast E "00000000" with hZdef
  set EL := List.foldl emitToken [] (tokenize (r.data.map Char.toLower)) with hELdef
  -- the star token of the prerelease tag is neither of the popped sentinels
  have hx1 : "*" ++ normalize t ≠ "*final-" := by
    intro heq
    have hd := congrArg String.data heq
    rw [data_star_append, show ("*final-" : String).data = '*' :: ("final-" : String).data from rfl] at hd
    have htail : (normalize t).data = ("final-" : String).data := by
      injection hd
    rw [string_data_ext htail] at hnt
    exact absurd hnt (by decide)
  have hx2 : "*" ++ normalize t ≠ "00000000" := by
    intro heq
    have hd := congrArg String.data heq
    rw [data_star_append] at hd
    have h5 := congrArg List.head? hd
    simp at h5
  -- post-processing the prerelease parts
  have hstep1 : postStep E "*final-" = Z ++ ["*final-"] := by
    rw [postStep, if_pos (by decide), if_neg (by decide), hZdef]
  have hZne : ∀ y ∈ Z, y ≠ "*final-" := by
    intro y hy
    have hyE := popWhileLast_mem hy
    have := hE y hyE
    have hne := digit_string_ne_star_prefixed this.1 this.2 (p := "final-")
    intro heq
    exact hne (by rw [heq]; rfl)
  have hstep2 : postStep (Z ++ ["*final-"]) ("*" ++ normalize t) =
      Z ++ ["*" ++ normalize t] := by
    rw [postStep, if_pos (headIs_star_append _),
      if_pos (by rw [show ("*final" : String) = "*" ++ "final" from rfl, cmpStr_star_star]; exact hnt),
      popWhileLast_append_single, popWhileLast_of_all_ne hZne, hZdef,
      popWhileLast_idem]
  obtain ⟨W, hW⟩ := foldl_postStep_protected hx1 hx2 (EL ++ ["*final"]) Z []
  have hp : parse_version (s ++ "-" ++ t ++ r) = Z ++ ("*" ++ normalize t) :: W := by
    rw [parse_version, rawParts, hemit, postprocess]
    rw [show (E ++ "*final-" :: ("*" ++ normalize t) :: EL) ++ ["*final"] =
        E ++ "*final-" :: ("*" ++ normalize t) :: (EL ++ ["*final"]) by simp]
    rw [List.foldl_append,
      foldl_postStep_nonstar (fun x hx => headIs_star_of_digit (hE x hx).1 (hE x hx).2) [],
      List.nil_append, List.foldl_cons, hstep1, List.foldl_cons, hstep2]
    exact hW
  rw [parse_version_standard hs, hp, ← hEdef, ← hZdef, cmpList_append_common]
  have hcmp : cmpStr "*final" ("*" ++ normalize t) = Ordering.gt := by
    rw [show ("*final" : String) = "*" ++ "final" from rfl, cmpStr_star_star]
    rw [cmpStr] at hnt ⊢
    exact cmpCharList_swap hnt
  simp only [cmpList, hcmp]

/-- Witness for the amended C1: `"1.2.3" > "1.2.3-beta.1"`. -/
theorem parse_version_pre_release_precedes_witness :
    cmpList (parse_version "1.2.3") (parse_version "1.2.3-beta.1") =
      Ordering.gt :=
  parse_version_pre_release_precedes "1.2.3" "beta" ".1" (by decide) (by decide)
    (by decide) (by decide) (by decide) (by decide)

theorem map_toLower_id {cs : List Char} (h : ∀ c ∈ cs, Char.toLower c = c) :
    cs.map Char.toLower = cs := by
  induction cs with
  | nil => rfl
  | cons c rest ih =>
    rw [List.map_cons, h c (by simp), ih (fun x hx => h x (by simp [hx]))]

theorem not_upper_toLower {c : Char} (h : c.isUpper = false) : c.toLower = c := by
  rcases Nat.lt_or_ge c.toNat 65 with hlt | hge
  · exact toLower_eq_self (Or.inl hlt)
  · rcases Nat.lt_or_ge 90 c.toNat with hgt | hle
    · exact toLower_eq_self (Or.inr hgt)
    · exact absurd (isUpper_iff.mpr ⟨hge, hle⟩) (by simp [h])

theorem alpha_false_parts {c : Char} (h : c.isAlpha = false) :
    c.isUpper = false ∧ c.isLower = false := by
  rw [Char.isAlpha] at h
  exact Bool.or_eq_false_iff.mp h

theorem pad8_zero_run {tok : String}
    (hrep : tok.data = List.replicate tok.data.length '0')
    (hn8 : tok.data.length ≤ 8) :
    pad8 tok = "00000000" := by
  apply string_data_ext
  rw [pad8_data]
  conv_lhs => rw [hrep]
  rw [← List.replicate_add, List.length_replicate]
  rw [show 8 - tok.data.length + tok.data.length = 8 by omega]
  decide

theorem emit_zero_tokens {T : List String}
    (h : ∀ tok ∈ T, emitToken [] tok = [] ∨ emitToken [] tok = ["00000000"]) :
    ∃ m, List.foldl emitToken [] T = List.replicate m "00000000" := by
  induction T with
  | nil => exact ⟨0, rfl⟩
  | cons t T ih =>
    obtain ⟨m, hm⟩ := ih (fun tok htok => h tok (by simp [htok]))
    rcases h t (by simp) with h1 | h1
    · refine ⟨m, ?_⟩
      rw [List.foldl_cons, foldl_emit_append, h1, hm, List.nil_append]
    · refine ⟨m + 1, ?_⟩
      rw [List.foldl_cons, foldl_emit_append, h1, hm]
      rfl

theorem popWhileLast_replicate (m : Nat) (x : String) :
    popWhileLast (List.replicate m x) x = [] := by
  rw [popWhileLast, List.reverse_replicate]
  rw [List.dropWhile_eq_nil_iff.mpr (fun y hy => by rw [List.eq_of_mem_replicate hy]; simp)]
  rfl

/-- C10 (amended): `parse_version` always returns a nonempty sequence ending
in `"*final"` (the terminal sentinel is appended and pushed last whatever
the token sequence is, so this part is insensitive to tokenization);
ASCII inputs with no digits, letters, dots or hyphens parse to exactly
`["*final"]` (the ASCII bound confines the statement to the inputs on
which this embedding coincides with the program — Rust lowercases
non-ASCII characters such as U+212A into letters and its regex `\d`
matches non-ASCII digits such as U+0663, both of which produce tokens);
and inputs of only zeros and dots (ASCII by construction) whose digit
runs are at most 8 characters long also parse to exactly `["*final"]`. -/
theorem parse_version_shape (s : String) :
    (parse_version s).getLast? = some "*final" ∧
    ((∀ c ∈ s.data, c.toNat < 128 ∧ c.isDigit = false ∧ c.isAlpha = false ∧
        c ≠ '.' ∧ c ≠ '-') →
      parse_version s = ["*final"]) ∧
    ((∀ c ∈ s.data, c = '0' ∨ c = '.') →
      (∀ tok ∈ tokenize s.data, tok.data.length ≤ 8) →
      parse_version s = ["*final"]) := by
  refine ⟨?_, ?_, ?_⟩
  · rw [parse_version, rawParts, postprocess, List.foldl_append, List.foldl_cons,
      List.foldl_nil, postStep, if_pos (by decide)]
    exact List.getLast?_concat _
  · intro h
    have hmap : s.data.map Char.toLower = s.data :=
      map_toLower_id (fun c hc => not_upper_toLower (alpha_false_parts (h c hc).2.2.1).1)
    rw [parse_version, rawParts, hmap,
      tokenize_all_skip (fun c hc =>
        ⟨(h c hc).2.1, (alpha_false_parts (h c hc).2.2.1).2, (h c hc).2.2.2.1,
         (h c hc).2.2.2.2⟩)]
    decide
  · intro h hlen
    have hmap : s.data.map Char.toLower = s.data := by
      refine map_toLower_id (fun c hc => ?_)
      rcases h c hc with rfl | rfl
      · exact toLower_eq_self (Or.inl (by decide))
      · exact toLower_eq_self (Or.inl (by decide))
    have hdd : ∀ c ∈ s.data, c.isDigit = true ∨ c = '.' := by
      intro c hc
      rcases h c hc with rfl | rfl
      · exact Or.inl (by decide)
      · exact Or.inr rfl
    have htoks := tokens_of_digit_dot hdd
    have hemit : ∀ tok ∈ tokenize s.data,
        emitToken [] tok = [] ∨ emitToken [] tok = ["00000000"] := by
      intro tok htok
      rcases htoks tok htok with rfl | ⟨hne, hdig, hmem⟩
      · exact Or.inl rfl
      · refine Or.inr ?_
        have hzero : tok.data = List.replicate tok.data.length '0' := by
          rw [List.eq_replicate_iff]
          refine ⟨rfl, fun b hb => ?_⟩
          rcases h b (hmem b hb) with h0 | hdot
          · exact h0
          · subst hdot
            exact absurd (List.all_eq_true.mp hdig _ hb) (by decide)
        rw [emit_of_all_digit [] hne hdig, List.nil_append,
          pad8_zero_run hzero (hlen tok htok)]
    obtain ⟨m, hm⟩ := emit_zero_tokens hemit
    rw [parse_version, rawParts, hmap, hm, postprocess, List.foldl_append,
      foldl_postStep_nonstar
        (fun x hx => by rw [List.eq_of_mem_replicate hx]; decide) [],
      List.nil_append, List.foldl_cons, List.foldl_nil, postStep,
      if_pos (by decide), if_neg (by decide), popWhileLast_replicate]
    rfl

/-- Witness for the amended C10 at concrete inputs: `"0.00"` (zeros and
dots, short runs), `"+_"` (no token characters at all) — whose keys
therefore compare equal — and the terminal sentinel of an arbitrary input
such as `"xyz"`. -/
theorem parse_version_shape_witness :
    parse_version "0.00" = ["*final"] ∧
    parse_version "+_" = ["*final"] ∧
    cmpList (parse_version "0.00") (parse_version "+_") = Ordering.eq ∧
    (parse_version "xyz").getLast? = some "*final" := by
  refine ⟨(parse_version_shape "0.00").2.2 (by decide) (by decide),
    (parse_version_shape "+_").2.1 (by decide), ?_, (parse_version_shape "xyz").1⟩
  rw [(parse_version_shape "0.00").2.2 (by decide) (by decide),
    (parse_version_shape "+_").2.1 (by decide)]
  decide

end Updates
